import Mathlib

/-!
Verification of `scripts/generate-snippets.py`: a shallow embedding of the
snippet scanner & combiner.  Python strings are modelled as `List Char`
(sequences of code points, so slicing and comparison match Python), the
filesystem as an association list from absolute path to content, and
`os.walk` by the list of (root, files) pairs it yields.
-/

namespace GenSnippets

/-- Python strings are sequences of code points; we model them as `List Char`. -/
abbrev Str := List Char

/-- String literal helper. -/
def str (s : String) : Str := s.toList

/-- The filesystem: an association list from absolute path to file content.
`List.lookup` returns the most recently written content. -/
abbrev FS := List (Str × Str)

/-- `EXTENSION_MAPPING` from the script, in source (insertion) order. -/
def EXTENSION_MAPPING : List (Str × Str) := [
  (str ".py", str "Python"),
  (str ".cs", str "C#"),
  (str ".kt", str "Kotlin"),
  (str ".java", str "Java"),
  (str ".go", str "Go"),
  (str ".php", str "PHP"),
  (str ".ts", str "TypeScript"),
  (str ".schema.json", str "JSON Schema")]

/-- `SYNTAX_MAPPING` from the script, in source (insertion) order. -/
def SYNTAX_MAPPING : List (Str × Str) := [
  (str ".py", str "python"),
  (str ".cs", str "csharp"),
  (str ".kt", str "kotlin"),
  (str ".java", str "java"),
  (str ".go", str "go"),
  (str ".php", str "php"),
  (str ".ts", str "typescript"),
  (str ".schema.json", str "json")]

/-- `COMBINED_EXT` from the script. -/
def COMBINED_EXT : Str := str ".md"

/-- Python's `<=` on strings: code-point lexicographic comparison. -/
def pyStrLe : Str → Str → Bool
  | [], _ => true
  | _ :: _, [] => false
  | a :: as, b :: bs => if a = b then pyStrLe as bs else decide (a < b)

/-- Stable insertion of `x` into `l`: `x` goes after every element `y` with
`le y x`, so elements comparing equal keep their original relative order. -/
def insortBy (le : α → α → Bool) (x : α) : List α → List α
  | [] => [x]
  | y :: ys => if le y x then y :: insortBy le x ys else x :: y :: ys

/-- Python's `sorted` with a total preorder comparator: the stable ascending
sort, whose result is uniquely determined by being a sorted, stable
permutation — insertion order realises it structurally. -/
def pySorted (le : α → α → Bool) (l : List α) : List α :=
  l.foldl (fun acc x => insortBy le x acc) []

/-- `LANGUAGE_ORDER = sorted(EXTENSION_MAPPING.items(), key=lambda x: x[1])`:
Python's sort is stable and ascending with `≤` on the sort key. -/
def LANGUAGE_ORDER : List (Str × Str) :=
  pySorted (fun x y => pyStrLe x.2 y.2) EXTENSION_MAPPING

/-- `SORTED_EXTENSIONS = sorted(EXTENSION_MAPPING.keys(), key=len, reverse=True)`:
`reverse=True` is the stable sort under the reversed key comparison. -/
def SORTED_EXTENSIONS : List Str :=
  pySorted (fun x y => decide (y.length ≤ x.length)) (EXTENSION_MAPPING.map Prod.fst)

/-- `os.path.join` (posix) for two components, as used by the script: an
absolute second component wins; otherwise the parts are joined with
exactly one slash. -/
def joinPath (a b : Str) : Str :=
  if (str "/").isPrefixOf b then b
  else if a = [] ∨ (str "/").isSuffixOf a then a ++ b
  else a ++ str "/" ++ b

/-- `path_to_snippet` from the script.  The script's global `snipets_path`
(sic) is passed explicitly.  `fname.startswith(snipets_path)` is the
prefix test and `fname[len(snipets_path) + 1:]` is `List.drop`. -/
def path_to_snippet (snipets_path fname : Str) : Option Str :=
  if !(snipets_path.isPrefixOf fname) then none
  else some (str "snippets/" ++ fname.drop (snipets_path.length + 1))

/-- `write_if_changed`: a missing file reads as `none` (`FileNotFoundError`
is caught and leaves `old_content = None`); the write happens exactly when
the old content differs from the new.  The returned `Bool` records whether
the write branch was taken. -/
def write_if_changed (fs : FS) (fname content : Str) : FS × Bool :=
  let old_content := fs.lookup fname
  if old_content ≠ some content then ((fname, content) :: fs, true)
  else (fs, false)

/-- The extension-matching loop of `process_folder`: the first extension of
`SORTED_EXTENSIONS` that is a suffix of `fname` (no table entry is empty,
so Python's falsiness test `if not matched_ext` agrees with `Option`). -/
def matched_ext (fname : Str) : Option Str :=
  SORTED_EXTENSIONS.find? (fun ext => ext.isSuffixOf fname)

/-- `found.setdefault(base, []).append(matched_ext)` on a Python dict:
insertion-ordered, modelled as an association list in insertion order. -/
def addFound (base ext : Str) : List (Str × List Str) → List (Str × List Str)
  | [] => [(base, [ext])]
  | (b, es) :: rest =>
    if base = b then (b, es ++ [ext]) :: rest
    else (b, es) :: addFound base ext rest

/-- One iteration of the grouping loop of `process_folder`: an unmatched
file leaves the dict alone, a matched one is recorded under its base name
`fname[:-len(matched_ext)]` (every matched extension is a nonempty suffix,
so the negative slice is `List.take`). -/
def foundStep (found : List (Str × List Str)) (fname : Str) : List (Str × List Str) :=
  match matched_ext fname with
  | none => found
  | some ext => addFound (fname.take (fname.length - ext.length)) ext found

/-- The first loop of `process_folder`: group the directory's file names by
base name. -/
def buildFound (files : List Str) : List (Str × List Str) :=
  files.foldl foundStep []

/-- f-string interpolation of an optional value: Python renders `None` as
the literal text `None`. -/
def pyInterp : Option Str → Str
  | none => str "None"
  | some s => s

/-- The five lines appended for one present language tab in `process_folder`,
with `infile = join(path, f"{base}{ext}")`.  Python's `SYNTAX_MAPPING[ext]`
raises `KeyError` on a missing key; the key set equals `EXTENSION_MAPPING`'s
(proved below), so the lookup succeeds and the `[]` default is unreachable
for every matched extension. -/
def tab_lines (snipets_path path base ext lang : Str) : List Str :=
  let infile := joinPath path (base ++ ext)
  [str "=== \"" ++ lang ++ str "\"",
   [],
   str "    ```" ++ ((SYNTAX_MAPPING.lookup ext).getD []),
   str "    --8<-- \"" ++ pyInterp (path_to_snippet snipets_path infile) ++ str "\"",
   str "    ```"]

/-- The content built for one group: tab blocks for the present extensions
in `LANGUAGE_ORDER`, then `content.append("")`, then `"\n".join(content)`. -/
def group_content (snipets_path path base : Str) (exts : List Str) : Str :=
  let content := LANGUAGE_ORDER.foldl (fun content p =>
    if exts.contains p.1 then content ++ tab_lines snipets_path path base p.1 p.2
    else content) []
  List.intercalate (str "\n") (content ++ [[]])

/-- The (path, content) pairs the second loop of `process_folder` produces:
one combined file `join(path, f"{base}.md")` per group, in dict insertion
order. -/
def folderOutputs (snipets_path path : Str) (files : List Str) : List (Str × Str) :=
  (buildFound files).map (fun bg =>
    (joinPath path (bg.1 ++ COMBINED_EXT), group_content snipets_path path bg.1 bg.2))

/-- Perform the writes of `process_folder` in order, counting the writes
whose write branch was actually taken. -/
def emit_pairs (fs : FS) : List (Str × Str) → FS × Nat
  | [] => (fs, 0)
  | (fname, content) :: rest =>
    let r := write_if_changed fs fname content
    let r2 := emit_pairs r.1 rest
    (r2.1, (if r.2 then 1 else 0) + r2.2)

/-- `process_folder(path, files)`: group the file names, then write each
combined file if changed.  The count is the number of writes performed. -/
def process_folder (snipets_path : Str) (fs : FS) (path : Str) (files : List Str) : FS × Nat :=
  emit_pairs fs (folderOutputs snipets_path path files)

/-- `generate()`: `os.walk(snipets_path)` is modelled by its output — the
(root, files) pairs it yields top-down, each root an absolute path under
the walked root.  `abspath(join(snipets_path, root))` is
`joinPath snipets_path root` here: `join` returns its second argument
unchanged when that is absolute, and `abspath` is the identity on the
already-absolute, already-normalised roots `os.walk` yields. -/
def generate (snipets_path : Str) (walk : List (Str × List Str)) (fs : FS) : FS × Nat :=
  match walk with
  | [] => (fs, 0)
  | (root, files) :: rest =>
    let r := process_folder snipets_path fs (joinPath snipets_path root) files
    let r2 := generate snipets_path rest r.1
    (r2.1, r.2 + r2.2)

/-! ### Evaluated forms of the derived configuration constants -/

lemma SORTED_EXTENSIONS_eval :
    SORTED_EXTENSIONS = [str ".schema.json", str ".java", str ".php",
      str ".py", str ".cs", str ".kt", str ".go", str ".ts"] := rfl

lemma LANGUAGE_ORDER_eval :
    LANGUAGE_ORDER = [(str ".cs", str "C#"), (str ".go", str "Go"),
      (str ".schema.json", str "JSON Schema"), (str ".java", str "Java"),
      (str ".kt", str "Kotlin"), (str ".php", str "PHP"),
      (str ".py", str "Python"), (str ".ts", str "TypeScript")] := rfl

/-! ### Longest-extension matching -/

/-- In a list sorted by non-increasing length, the first entry satisfying a
predicate has maximal length among all entries satisfying it. -/
lemma find?_length_ge {p : Str → Bool} :
    ∀ {l : List Str} {ext : Str},
      l.Pairwise (fun a b => b.length ≤ a.length) →
      l.find? p = some ext →
      ∀ e ∈ l, p e = true → e.length ≤ ext.length := by
  intro l
  induction l with
  | nil => intro ext _ h; simp at h
  | cons a rest ih =>
    intro ext hp hf e he hpe
    rw [List.pairwise_cons] at hp
    by_cases hpa : p a = true
    · rw [List.find?_cons_of_pos _ hpa] at hf
      injection hf with hf
      subst hf
      rcases List.mem_cons.mp he with rfl | he'
      · exact Nat.le_refl _
      · exact hp.1 e he'
    · rw [List.find?_cons_of_neg _ hpa] at hf
      rcases List.mem_cons.mp he with rfl | he'
      · exact absurd hpe hpa
      · exact ih hp.2 hf e he' hpe

/-- C2: the extension matched for a file name is an extension of the table,
it is a suffix of the file name, it is the longest table extension that is
a suffix, and the base name (the file name with the matched extension
removed) concatenated with the matched extension recovers the file name. -/
theorem C2_longest_match (fname ext : Str) (h : matched_ext fname = some ext) :
    ext ∈ EXTENSION_MAPPING.map Prod.fst ∧
    ext.isSuffixOf fname = true ∧
    (∀ e ∈ EXTENSION_MAPPING.map Prod.fst, e.isSuffixOf fname = true →
      e.length ≤ ext.length) ∧
    fname.take (fname.length - ext.length) ++ ext = fname := by
  unfold matched_ext at h
  have hmem : ext ∈ SORTED_EXTENSIONS := List.mem_of_find?_eq_some h
  have hsuf : ext.isSuffixOf fname = true := by
    simpa using List.find?_some h
  have hperm : (EXTENSION_MAPPING.map Prod.fst).Perm SORTED_EXTENSIONS := by decide
  have hmax := find?_length_ge (l := SORTED_EXTENSIONS) (by decide) h
  obtain ⟨t, ht⟩ := List.isSuffixOf_iff_suffix.mp hsuf
  refine ⟨hperm.mem_iff.mpr hmem, hsuf, fun e hemem hesuf =>
    hmax e (hperm.mem_iff.mp hemem) hesuf, ?_⟩
  subst ht
  have hlen : (t ++ ext).length - ext.length = t.length := by
    simp [List.length_append]
  rw [hlen, List.take_left]

/-- Witness for C2: `example.schema.json` is matched by the multi-segment
extension `.schema.json`, not a shorter suffix, and base + extension
recovers the name. -/
theorem C2_witness :
    matched_ext (str "example.schema.json") = some (str ".schema.json") ∧
    (str "example.schema.json").take
        ((str "example.schema.json").length - (str ".schema.json").length) ++
      str ".schema.json" = str "example.schema.json" :=
  ⟨by decide, (C2_longest_match _ _ (by decide)).2.2.2⟩

/-- C1: on a directory containing exactly `demo.py` and `demo.go`, the
generator writes exactly one file `demo.md` whose byte content is the Go
tab block followed immediately by the Python tab block (display-name
order), each block being the tab header, a blank line, the indented fence
opened with the syntax token, the include directive, and the closing
fence, with exactly one trailing newline. -/
theorem C1_end_to_end :
    generate (str "/docs/snippets")
        [((str "/docs/snippets"), [str "demo.py", str "demo.go"])] [] =
      ([((str "/docs/snippets/demo.md"),
         str "=== \"Go\"\n\n    ```go\n    --8<-- \"snippets/demo.go\"\n    ```\n=== \"Python\"\n\n    ```python\n    --8<-- \"snippets/demo.py\"\n    ```\n")],
       1) := by
  rfl

/-- C3 as stated is false: `/docs/snippets-old/x.py` lies outside the root
`/docs/snippets` (it is not the root and is not under `root ++ "/"`), yet
`path_to_snippet` returns a malformed reference rather than `none`,
because the containment test is a raw string-prefix check. -/
theorem C3_counterexample :
    (str "/docs/snippets" ++ str "/").isPrefixOf (str "/docs/snippets-old/x.py") = false ∧
    str "/docs/snippets-old/x.py" ≠ str "/docs/snippets" ∧
    path_to_snippet (str "/docs/snippets") (str "/docs/snippets-old/x.py") =
      some (str "snippets/old/x.py") := by
  decide

/-- C3 amended: the containment test is lexical.  `path_to_snippet` returns
`none` exactly for paths that do not have the root as a string prefix, and
for every path genuinely inside the root — of the form
`root ++ "/" ++ rel` — it returns `snippets/<rel>`; a path outside the
root that merely starts with the root string instead yields a reference
string (see the counterexample). -/
theorem C3_amended (snipets_path fname : Str) :
    (snipets_path.isPrefixOf fname = false →
      path_to_snippet snipets_path fname = none) ∧
    (∀ rel, fname = snipets_path ++ '/' :: rel →
      path_to_snippet snipets_path fname = some (str "snippets/" ++ rel)) := by
  constructor
  · intro h
    simp [path_to_snippet, h]
  · rintro rel rfl
    have hpre : snipets_path.isPrefixOf (snipets_path ++ '/' :: rel) = true := by
      simp
    have hdrop : (snipets_path ++ '/' :: rel).drop (snipets_path.length + 1) = rel := by
      have hsplit : snipets_path ++ '/' :: rel = (snipets_path ++ ['/']) ++ rel := by
        simp
      rw [hsplit, List.drop_left' (by simp)]
    simp [path_to_snippet, hpre, hdrop]

/-- Witness for C3's amended statement, at a non-prefix path and at a path
inside the root. -/
theorem C3_amended_witness :
    path_to_snippet (str "/docs/snippets") (str "/other/x.py") = none ∧
    path_to_snippet (str "/docs/snippets") (str "/docs/snippets/sub/x.py") =
      some (str "snippets/sub/x.py") :=
  ⟨(C3_amended (str "/docs/snippets") (str "/other/x.py")).1 (by decide),
   (C3_amended (str "/docs/snippets") (str "/docs/snippets/sub/x.py")).2
     (str "sub/x.py") (by decide)⟩

/-- C6: `write_if_changed` leaves a byte-identical file untouched taking no
write; writes the new content when the old differs; and treats a missing
file as no previous content, forcing a write that creates the file. -/
theorem C6_write_if_changed (fs : FS) (fname content : Str) :
    (fs.lookup fname = some content →
      write_if_changed fs fname content = (fs, false)) ∧
    (fs.lookup fname ≠ some content →
      write_if_changed fs fname content = ((fname, content) :: fs, true)) ∧
    (fs.lookup fname = none →
      (write_if_changed fs fname content).2 = true ∧
      (write_if_changed fs fname content).1.lookup fname = some content) := by
  refine ⟨fun h => ?_, fun h => ?_, fun h => ?_⟩
  · simp [write_if_changed, h]
  · simp [write_if_changed, h]
  · have hne : fs.lookup fname ≠ some content := by simp [h]
    simp [write_if_changed, hne]

/-- Witness for C6: an unchanged file is skipped; a missing file forces a
creating write. -/
theorem C6_witness :
    write_if_changed [((str "a.md"), str "x")] (str "a.md") (str "x") =
      ([((str "a.md"), str "x")], false) ∧
    ((write_if_changed [] (str "a.md") (str "x")).2 = true ∧
      (write_if_changed [] (str "a.md") (str "x")).1.lookup (str "a.md") =
        some (str "x")) :=
  ⟨(C6_write_if_changed _ _ _).1 (by decide),
   (C6_write_if_changed _ _ _).2.2 (by decide)⟩

/-- C10: the syntax-highlight table has exactly the key set of the
extension table, so the `SYNTAX_MAPPING[ext]` lookup performed while
emitting a tab block is defined for every matched extension. -/
theorem C10_key_sets (fname ext : Str) (h : matched_ext fname = some ext) :
    EXTENSION_MAPPING.map Prod.fst = SYNTAX_MAPPING.map Prod.fst ∧
    (SYNTAX_MAPPING.lookup ext).isSome = true := by
  refine ⟨by decide, ?_⟩
  unfold matched_ext at h
  have hmem : ext ∈ SORTED_EXTENSIONS := List.mem_of_find?_eq_some h
  have hall : ∀ e ∈ SORTED_EXTENSIONS, (SYNTAX_MAPPING.lookup e).isSome = true := by
    decide
  exact hall ext hmem

/-- Witness for C10, at the matched extension of `a.py`. -/
theorem C10_witness :
    EXTENSION_MAPPING.map Prod.fst = SYNTAX_MAPPING.map Prod.fst ∧
    (SYNTAX_MAPPING.lookup (str ".py")).isSome = true :=
  C10_key_sets (str "a.py") (str ".py") (by decide)

/-! ### Grouping lemmas -/

lemma foldl_foundStep_of_no_match :
    ∀ (files : List Str) (acc : List (Str × List Str)),
      (∀ g ∈ files, matched_ext g = none) → files.foldl foundStep acc = acc := by
  intro files
  induction files with
  | nil => intro acc _; rfl
  | cons f rest ih =>
    intro acc h
    rw [List.foldl_cons]
    have hf : foundStep acc f = acc := by
      simp [foundStep, h f (List.mem_cons_self f rest)]
    rw [hf]
    exact ih acc fun g hg => h g (List.mem_cons_of_mem _ hg)

/-- C8: a file matching no table extension joins no group (grouping is
total, so nothing is raised), and a directory whose files all match no
extension produces no combined file and causes no write at all. -/
theorem C8_unmatched_skipped (snipets_path path f : Str)
    (l1 l2 files : List Str) (fs : FS) :
    (matched_ext f = none →
      buildFound (l1 ++ f :: l2) = buildFound (l1 ++ l2)) ∧
    ((∀ g ∈ files, matched_ext g = none) →
      folderOutputs snipets_path path files = [] ∧
      process_folder snipets_path fs path files = (fs, 0)) := by
  constructor
  · intro h
    unfold buildFound
    rw [List.foldl_append, List.foldl_append, List.foldl_cons]
    have hstep : foundStep (l1.foldl foundStep []) f = l1.foldl foundStep [] := by
      simp [foundStep, h]
    rw [hstep]
  · intro h
    have hb : buildFound files = [] := foldl_foundStep_of_no_match files [] h
    exact ⟨by simp [folderOutputs, hb],
           by simp [process_folder, folderOutputs, hb, emit_pairs]⟩

/-- Witness for C8: a `.txt` file joins no group; a directory with only a
`.txt` file produces nothing and writes nothing. -/
theorem C8_witness :
    buildFound [str "a.py", str "notes.txt", str "b.go"] =
      buildFound [str "a.py", str "b.go"] ∧
    process_folder (str "/docs/snippets") [] (str "/docs/snippets")
      [str "readme.txt"] = ([], 0) :=
  ⟨(C8_unmatched_skipped (str "/docs/snippets") (str "/docs/snippets")
      (str "notes.txt") [str "a.py"] [str "b.go"] [] []).1 (by decide),
   ((C8_unmatched_skipped (str "/docs/snippets") (str "/docs/snippets")
      (str "x") [] [] [str "readme.txt"] []).2 (by decide)).2⟩

lemma lookup_cons_ne {β : Type} {k a : Str} {w : β} {l : List (Str × β)}
    (h : a ≠ k) : ((k, w) :: l).lookup a = l.lookup a := by
  rw [List.lookup_cons, beq_eq_false_iff_ne.mpr h]

/-- `List.lookup` after `addFound`: the group of `base` gains `ext` at its
end (created as `[ext]` when absent); other groups are untouched. -/
lemma lookup_addFound (base ext : Str) :
    ∀ (found : List (Str × List Str)) (b' : Str),
      (addFound base ext found).lookup b' =
        if b' = base then some (((found.lookup base).getD []) ++ [ext])
        else found.lookup b' := by
  intro found
  induction found with
  | nil =>
    intro b'
    by_cases hb : b' = base
    · subst hb
      simp [addFound]
    · rw [if_neg hb]
      show ([(base, [ext])].lookup b') = List.lookup b' []
      rw [lookup_cons_ne hb]
  | cons p rest ih =>
    intro b'
    obtain ⟨c, es⟩ := p
    by_cases hbc : base = c
    · subst hbc
      rw [show addFound base ext ((base, es) :: rest) =
        (base, es ++ [ext]) :: rest from by simp [addFound]]
      by_cases hb : b' = base
      · subst hb
        rw [if_pos rfl, List.lookup_cons_self, List.lookup_cons_self]
        rfl
      · rw [if_neg hb, lookup_cons_ne hb, lookup_cons_ne hb]
    · rw [show addFound base ext ((c, es) :: rest) =
        (c, es) :: addFound base ext rest from by simp [addFound, hbc]]
      by_cases hbc' : b' = c
      · subst hbc'
        have hb : b' ≠ base := fun hh => hbc hh.symm
        rw [if_neg hb, List.lookup_cons_self, List.lookup_cons_self]
      · rw [lookup_cons_ne hbc', ih]
        by_cases hb : b' = base
        · rw [if_pos hb, if_pos hb, lookup_cons_ne hbc]
        · rw [if_neg hb, if_neg hb, lookup_cons_ne hbc']

/-- The extensions the grouping loop records under base `b`, in file order. -/
def extsFor (b : Str) (files : List Str) : List Str :=
  files.filterMap fun fname =>
    match matched_ext fname with
    | none => none
    | some ext =>
      if fname.take (fname.length - ext.length) = b then some ext else none

lemma lookup_foldl_foundStep :
    ∀ (files : List Str) (acc : List (Str × List Str)) (b : Str),
      (files.foldl foundStep acc).lookup b =
        if acc.lookup b = none ∧ extsFor b files = [] then none
        else some (((acc.lookup b).getD []) ++ extsFor b files) := by
  intro files
  induction files with
  | nil =>
    intro acc b
    cases h : acc.lookup b <;> simp [extsFor, h]
  | cons f rest ih =>
    intro acc b
    rw [List.foldl_cons, ih]
    cases hm : matched_ext f with
    | none =>
      have hstep : foundStep acc f = acc := by simp [foundStep, hm]
      have hext : extsFor b (f :: rest) = extsFor b rest := by
        simp [extsFor, List.filterMap_cons, hm]
      rw [hstep, hext]
    | some ext =>
      by_cases hb : f.take (f.length - ext.length) = b
      · have hstep : foundStep acc f = addFound b ext acc := by
          simp [foundStep, hm, hb]
        have hext : extsFor b (f :: rest) = ext :: extsFor b rest := by
          simp [extsFor, List.filterMap_cons, hm, hb]
        rw [hstep, hext, lookup_addFound]
        simp [List.append_assoc]
      · have hstep : foundStep acc f =
            addFound (f.take (f.length - ext.length)) ext acc := by
          simp [foundStep, hm]
        have hext : extsFor b (f :: rest) = extsFor b rest := by
          simp [extsFor, List.filterMap_cons, hm, hb]
        rw [hstep, hext, lookup_addFound,
          if_neg (show ¬ b = f.take (f.length - ext.length) from fun hh => hb hh.symm)]

/-- The dict built by the grouping loop, looked up at a base name: exactly
the contributed extensions, in file order. -/
lemma lookup_buildFound (files : List Str) (b : Str) :
    (buildFound files).lookup b =
      if extsFor b files = [] then none else some (extsFor b files) := by
  have h := lookup_foldl_foundStep files [] b
  simpa [buildFound, List.lookup] using h

lemma mem_of_lookup_eq_some {β : Type} :
    ∀ {l : List (Str × β)} {k : Str} {v : β},
      l.lookup k = some v → (k, v) ∈ l := by
  intro l
  induction l with
  | nil => intro k v h; simp [List.lookup] at h
  | cons p rest ih =>
    intro k v h
    obtain ⟨c, w⟩ := p
    rw [List.lookup_cons] at h
    by_cases hk : (k == c) = true
    · have hk' : k = c := by simpa using hk
      rw [hk] at h
      simp only [Option.some.injEq] at h
      subst hk'
      subst h
      exact List.mem_cons_self _ _
    · rw [Bool.not_eq_true] at hk
      rw [hk] at h
      exact List.mem_cons_of_mem _ (ih h)

lemma keys_addFound (base ext : Str) :
    ∀ (found : List (Str × List Str)),
      (addFound base ext found).map Prod.fst =
        if base ∈ found.map Prod.fst then found.map Prod.fst
        else found.map Prod.fst ++ [base] := by
  intro found
  induction found with
  | nil => simp [addFound]
  | cons p rest ih =>
    obtain ⟨c, es⟩ := p
    by_cases hbc : base = c
    · subst hbc
      simp [addFound]
    · by_cases hmem : base ∈ rest.map Prod.fst <;>
        simp [addFound, hbc, ih, hmem, Ne.symm hbc]

lemma keys_nodup_foldl :
    ∀ (files : List Str) (acc : List (Str × List Str)),
      (acc.map Prod.fst).Nodup →
      ((files.foldl foundStep acc).map Prod.fst).Nodup := by
  intro files
  induction files with
  | nil => intro acc h; exact h
  | cons f rest ih =>
    intro acc h
    rw [List.foldl_cons]
    apply ih
    cases hm : matched_ext f with
    | none => simpa [foundStep, hm] using h
    | some ext =>
      have hstep : foundStep acc f =
          addFound (f.take (f.length - ext.length)) ext acc := by
        simp [foundStep, hm]
      rw [hstep, keys_addFound]
      split
      · exact h
      · next hnot =>
        exact ((List.perm_append_singleton _ _).nodup_iff).mpr
          (List.nodup_cons.mpr ⟨hnot, h⟩)

lemma keys_nodup_buildFound (files : List Str) :
    ((buildFound files).map Prod.fst).Nodup :=
  keys_nodup_foldl files [] (by simp)

lemma lookup_of_mem_of_nodup {β : Type} :
    ∀ {l : List (Str × β)} {b : Str} {v : β},
      (l.map Prod.fst).Nodup → (b, v) ∈ l → l.lookup b = some v := by
  intro l
  induction l with
  | nil => intro b v _ h; simp at h
  | cons p rest ih =>
    intro b v hn hm
    obtain ⟨c, w⟩ := p
    rw [List.map_cons, List.nodup_cons] at hn
    rcases List.mem_cons.mp hm with heq | hmem
    · cases heq
      exact List.lookup_cons_self
    · have hbc : b ≠ c := by
        intro hh
        apply hn.1
        rw [← hh]
        exact List.mem_map.mpr ⟨(b, v), hmem, rfl⟩
      rw [List.lookup_cons]
      have : (b == c) = false := by simpa using hbc
      rw [this]
      exact ih hn.2 hmem

/-- `group_content` depends on the recorded extensions only through
membership. -/
lemma group_content_congr (snipets_path path b : Str) {es es' : List Str}
    (h : ∀ x, x ∈ es ↔ x ∈ es') :
    group_content snipets_path path b es = group_content snipets_path path b es' := by
  have hc : ∀ x : Str, es.contains x = es'.contains x := by
    intro x
    simp [List.contains, List.elem_eq_mem, h x]
  have aux : ∀ (l : List (Str × Str)) (acc : List Str),
      l.foldl (fun content p =>
        if es.contains p.1 then content ++ tab_lines snipets_path path b p.1 p.2
        else content) acc =
      l.foldl (fun content p =>
        if es'.contains p.1 then content ++ tab_lines snipets_path path b p.1 p.2
        else content) acc := by
    intro l
    induction l with
    | nil => intro acc; rfl
    | cons p rest ihl =>
      intro acc
      rw [List.foldl_cons, List.foldl_cons, hc p.1]
      exact ihl _
  simp only [group_content]
  rw [aux]

/-- One direction of C5: every output of `process_folder` on one
enumeration order appears identically for any permuted order. -/
lemma folderOutputs_mem_of_perm {files files' : List Str}
    (hp : files.Perm files') {snipets_path path fname content : Str}
    (hm : (fname, content) ∈ folderOutputs snipets_path path files) :
    (fname, content) ∈ folderOutputs snipets_path path files' := by
  unfold folderOutputs at hm ⊢
  rw [List.mem_map] at hm
  obtain ⟨⟨b, es⟩, hbg, heq⟩ := hm
  have hlk : (buildFound files).lookup b = some es :=
    lookup_of_mem_of_nodup (keys_nodup_buildFound files) hbg
  rw [lookup_buildFound] at hlk
  split at hlk
  · exact absurd hlk (by simp)
  · next hne =>
    have hes : es = extsFor b files := by
      injection hlk with hlk
      exact hlk.symm
    have hperm2 : (extsFor b files).Perm (extsFor b files') := hp.filterMap _
    have hne' : extsFor b files' ≠ [] := by
      intro hnil
      exact hne ((hnil ▸ hperm2).eq_nil)
    have hlk' : (buildFound files').lookup b = some (extsFor b files') := by
      rw [lookup_buildFound, if_neg hne']
    rw [List.mem_map]
    refine ⟨(b, extsFor b files'), mem_of_lookup_eq_some hlk', ?_⟩
    rw [← heq]
    have hcontent : group_content snipets_path path b (extsFor b files') =
        group_content snipets_path path b es :=
      group_content_congr snipets_path path b
        (fun x => by rw [hes]; exact (hperm2.mem_iff).symm)
    rw [hcontent]

/-- C5: the set of (path, byte-content) pairs `process_folder` writes is
invariant under permutation of the directory listing: each combined
file's content is a function of the set of file names only, independent
of filesystem enumeration order. -/
theorem C5_order_determinism (snipets_path path : Str) {files files' : List Str}
    (hp : files.Perm files') (fname content : Str) :
    ((fname, content) ∈ folderOutputs snipets_path path files ↔
      (fname, content) ∈ folderOutputs snipets_path path files') :=
  ⟨folderOutputs_mem_of_perm hp, folderOutputs_mem_of_perm hp.symm⟩

/-- Witness for C5, on the two orders of `[demo.py, demo.go]`. -/
theorem C5_witness :
    ([str "demo.py", str "demo.go"] : List Str).Perm
      [str "demo.go", str "demo.py"] ∧
    (((str "/docs/snippets/demo.md"), str "x") ∈
        folderOutputs (str "/docs/snippets") (str "/docs/snippets")
          [str "demo.py", str "demo.go"] ↔
      ((str "/docs/snippets/demo.md"), str "x") ∈
        folderOutputs (str "/docs/snippets") (str "/docs/snippets")
          [str "demo.go", str "demo.py"]) :=
  ⟨by decide,
   C5_order_determinism (str "/docs/snippets") (str "/docs/snippets")
     (by decide) (str "/docs/snippets/demo.md") (str "x")⟩

/-! ### Single-variant groups -/

/-- A file name contributes to base `b`: it matches some table extension
and stripping that extension yields `b`. -/
def contributes (b fname : Str) : Bool :=
  match matched_ext fname with
  | none => false
  | some ext => decide (fname.take (fname.length - ext.length) = b)

lemma length_extsFor (b : Str) :
    ∀ files : List Str, (extsFor b files).length = files.countP (contributes b) := by
  intro files
  induction files with
  | nil => rfl
  | cons f rest ih =>
    rw [List.countP_cons]
    cases hm : matched_ext f with
    | none =>
      have h1 : extsFor b (f :: rest) = extsFor b rest := by
        simp [extsFor, List.filterMap_cons, hm]
      have h2 : contributes b f = false := by simp [contributes, hm]
      rw [h1, h2, ih]
      rfl
    | some ext =>
      by_cases hb : f.take (f.length - ext.length) = b
      · have h1 : extsFor b (f :: rest) = ext :: extsFor b rest := by
          simp [extsFor, List.filterMap_cons, hm, hb]
        have h2 : contributes b f = true := by simp [contributes, hm, hb]
        rw [h1, h2, List.length_cons, ih]
        rfl
      · have h1 : extsFor b (f :: rest) = extsFor b rest := by
          simp [extsFor, List.filterMap_cons, hm, hb]
        have h2 : contributes b f = false := by simp [contributes, hm, hb]
        rw [h1, h2, ih]
        rfl

lemma mem_extsFor_of {b f e : Str} {files : List Str} (hf : f ∈ files)
    (he : matched_ext f = some e) (hb : f.take (f.length - e.length) = b) :
    e ∈ extsFor b files := by
  unfold extsFor
  rw [List.mem_filterMap]
  exact ⟨f, hf, by simp [he, hb]⟩

lemma eq_singleton_of_length_one_of_mem {l : List Str} {e : Str}
    (h1 : l.length = 1) (h2 : e ∈ l) : l = [e] := by
  cases l with
  | nil => simp at h2
  | cons x xs =>
    cases xs with
    | nil =>
      rw [List.mem_singleton] at h2
      rw [h2]
    | cons y ys => simp at h1

/-- With a single recorded extension, the content is exactly the one tab
block for that extension's display language, followed by the trailing
newline. -/
lemma group_content_single (snipets_path path b e lang : Str)
    (hmem : e ∈ SORTED_EXTENSIONS)
    (hlang : EXTENSION_MAPPING.lookup e = some lang) :
    group_content snipets_path path b [e] =
      List.intercalate (str "\n") (tab_lines snipets_path path b e lang ++ [[]]) := by
  rw [SORTED_EXTENSIONS_eval] at hmem
  fin_cases hmem
  · have h2 : some (str "JSON Schema") = some lang := hlang
    injection h2 with h2
    subst h2
    rfl
  · have h2 : some (str "Java") = some lang := hlang
    injection h2 with h2
    subst h2
    rfl
  · have h2 : some (str "PHP") = some lang := hlang
    injection h2 with h2
    subst h2
    rfl
  · have h2 : some (str "Python") = some lang := hlang
    injection h2 with h2
    subst h2
    rfl
  · have h2 : some (str "C#") = some lang := hlang
    injection h2 with h2
    subst h2
    rfl
  · have h2 : some (str "Kotlin") = some lang := hlang
    injection h2 with h2
    subst h2
    rfl
  · have h2 : some (str "Go") = some lang := hlang
    injection h2 with h2
    subst h2
    rfl
  · have h2 : some (str "TypeScript") = some lang := hlang
    injection h2 with h2
    subst h2
    rfl

/-- C7: when exactly one file of the directory matches a recognised
extension with base name `b`, the combined file for `b` is still
produced, containing exactly one tab block, labelled with the display
language of that file's matched extension. -/
theorem C7_single_variant (snipets_path path b f e : Str) (files : List Str)
    (hf : f ∈ files) (he : matched_ext f = some e)
    (hb : f.take (f.length - e.length) = b)
    (hcount : files.countP (contributes b) = 1) :
    ∃ lang, EXTENSION_MAPPING.lookup e = some lang ∧
      (joinPath path (b ++ COMBINED_EXT),
        List.intercalate (str "\n")
          (tab_lines snipets_path path b e lang ++ [[]])) ∈
        folderOutputs snipets_path path files := by
  have hmem : e ∈ SORTED_EXTENSIONS := by
    unfold matched_ext at he
    exact List.mem_of_find?_eq_some he
  have hsome : (EXTENSION_MAPPING.lookup e).isSome = true := by
    have hall : ∀ x ∈ SORTED_EXTENSIONS, (EXTENSION_MAPPING.lookup x).isSome = true := by
      decide
    exact hall e hmem
  obtain ⟨lang, hlang⟩ := Option.isSome_iff_exists.mp hsome
  refine ⟨lang, hlang, ?_⟩
  have hsingle : extsFor b files = [e] :=
    eq_singleton_of_length_one_of_mem
      (by rw [length_extsFor]; exact hcount) (mem_extsFor_of hf he hb)
  have hlk : (buildFound files).lookup b = some [e] := by
    rw [lookup_buildFound, hsingle]
    simp
  have hbmem : (b, [e]) ∈ buildFound files := mem_of_lookup_eq_some hlk
  unfold folderOutputs
  rw [List.mem_map]
  exact ⟨(b, [e]), hbmem,
    by rw [group_content_single snipets_path path b e lang hmem hlang]⟩

/-- Witness for C7: `demo.py` is the only recognised file with base `demo`
in its directory, and a single correctly-labelled tab block is produced. -/
theorem C7_witness :
    ∃ lang, EXTENSION_MAPPING.lookup (str ".py") = some lang ∧
      (joinPath (str "/docs/snippets") ((str "demo") ++ COMBINED_EXT),
        List.intercalate (str "\n")
          (tab_lines (str "/docs/snippets") (str "/docs/snippets") (str "demo")
            (str ".py") lang ++ [[]])) ∈
        folderOutputs (str "/docs/snippets") (str "/docs/snippets")
          [str "notes.txt", str "demo.py"] :=
  C7_single_variant (str "/docs/snippets") (str "/docs/snippets") (str "demo")
    (str "demo.py") (str ".py") [str "notes.txt", str "demo.py"]
    (by decide) (by decide) (by decide) (by decide)

/-! ### The sentinel is never interpolated -/

/-- C9: for every directory `generate` passes to `process_folder` —
`os.walk(snipets_path)` yields only roots having the walked root as a
prefix, captured by the hypothesis on `d` — and every slash-free snippet
file name, the include directive of the emitted tab block holds a
`snippets/...` reference: `path_to_snippet` never returns the `None`
sentinel there, and the literal text `None` never appears in the
directive. -/
theorem C9_no_sentinel (snipets_path d base ext lang : Str)
    (hd : snipets_path.isPrefixOf d = true)
    (hb : (str "/").isPrefixOf (base ++ ext) = false) :
    ∃ rel, path_to_snippet snipets_path (joinPath d (base ++ ext)) =
        some (str "snippets/" ++ rel) ∧
      tab_lines snipets_path d base ext lang =
        [str "=== \"" ++ lang ++ str "\"",
         [],
         str "    ```" ++ ((SYNTAX_MAPPING.lookup ext).getD []),
         str "    --8<-- \"" ++ (str "snippets/" ++ rel) ++ str "\"",
         str "    ```"] := by
  have hjoin : ∃ tail, joinPath d (base ++ ext) = d ++ tail := by
    unfold joinPath
    rw [hb]
    by_cases hd0 : d = [] ∨ (str "/").isSuffixOf d
    · simp only [Bool.false_eq_true, if_false, if_pos hd0]
      exact ⟨base ++ ext, rfl⟩
    · simp only [Bool.false_eq_true, if_false, if_neg hd0]
      exact ⟨str "/" ++ (base ++ ext), by rw [List.append_assoc]⟩
  obtain ⟨tail, htail⟩ := hjoin
  have hdpre : snipets_path <+: d := by simpa using hd
  have hpre : snipets_path.isPrefixOf (joinPath d (base ++ ext)) = true := by
    rw [htail]
    simpa using hdpre.trans (List.prefix_append d tail)
  refine ⟨(joinPath d (base ++ ext)).drop (snipets_path.length + 1), ?_, ?_⟩
  · simp [path_to_snippet, hpre]
  · have hsent : path_to_snippet snipets_path (joinPath d (base ++ ext)) =
        some (str "snippets/" ++
          (joinPath d (base ++ ext)).drop (snipets_path.length + 1)) := by
      simp [path_to_snippet, hpre]
    simp only [tab_lines]
    rw [hsent]
    rfl

/-- Witness for C9, with the walk root as directory and `demo.py`. -/
theorem C9_witness :
    ∃ rel, path_to_snippet (str "/docs/snippets")
        (joinPath (str "/docs/snippets") ((str "demo") ++ str ".py")) =
        some (str "snippets/" ++ rel) ∧
      tab_lines (str "/docs/snippets") (str "/docs/snippets") (str "demo")
          (str ".py") (str "Python") =
        [str "=== \"" ++ (str "Python") ++ str "\"",
         [],
         str "    ```" ++ ((SYNTAX_MAPPING.lookup (str ".py")).getD []),
         str "    --8<-- \"" ++ (str "snippets/" ++ rel) ++ str "\"",
         str "    ```"] :=
  C9_no_sentinel (str "/docs/snippets") (str "/docs/snippets") (str "demo")
    (str ".py") (str "Python") (by decide) (by decide)

/-! ### Idempotence infrastructure -/

/-- Guarantees `os.walk(snipets_path)` provides for its output: the yielded
roots are pairwise distinct absolute normalised paths (starting with `/`,
not ending in `/`), and the yielded entries are bare file names with no
path separator. -/
def goodWalk (walk : List (Str × List Str)) : Prop :=
  (walk.map Prod.fst).Nodup ∧
  ∀ p ∈ walk,
    (str "/").isPrefixOf p.1 = true ∧
    (str "/").isSuffixOf p.1 = false ∧
    ∀ f ∈ p.2, '/' ∉ f

/-- The listing relation between one run and the next with unchanged
snippet sources: same directories in the same order, where each directory
may additionally list trailing (generated) `.md` files. -/
def secondWalk (w w' : List (Str × List Str)) : Prop :=
  List.Forall₂ (fun p q => p.1 = q.1 ∧ p.2.isPrefixOf q.2 = true ∧
    ∀ g ∈ q.2.drop p.2.length, (str ".md").isSuffixOf g = true) w w'

lemma getLast?_eq_of_isSuffixOf {e g : Str} (h : e.isSuffixOf g = true)
    (he : e ≠ []) : g.getLast? = e.getLast? := by
  obtain ⟨t, ht⟩ := List.isSuffixOf_iff_suffix.mp h
  subst ht
  cases hq : e.getLast? with
  | none => exact absurd (List.getLast?_eq_none_iff.mp hq) he
  | some x => simp [List.getLast?_append, hq, Option.or]

/-- A name ending in `.md` — in particular every generated combined file —
matches no table extension: no extension ends in `d`. -/
lemma matched_ext_of_md {g : Str} (h : (str ".md").isSuffixOf g = true) :
    matched_ext g = none := by
  have hg : g.getLast? = some 'd' := by
    rw [getLast?_eq_of_isSuffixOf h (by decide)]
    rfl
  unfold matched_ext
  rw [List.find?_eq_none]
  intro e he hsuf
  have hall : ∀ x ∈ SORTED_EXTENSIONS, x ≠ [] ∧ x.getLast? ≠ some 'd' := by decide
  have hx := hall e he
  exact hx.2 ((getLast?_eq_of_isSuffixOf hsuf hx.1).symm.trans hg)

lemma buildFound_append_md (files extra : List Str)
    (h : ∀ g ∈ extra, (str ".md").isSuffixOf g = true) :
    buildFound (files ++ extra) = buildFound files := by
  unfold buildFound
  rw [List.foldl_append]
  exact foldl_foundStep_of_no_match extra _ fun g hg => matched_ext_of_md (h g hg)

lemma folderOutputs_append_md (snipets_path path : Str) (files extra : List Str)
    (h : ∀ g ∈ extra, (str ".md").isSuffixOf g = true) :
    folderOutputs snipets_path path (files ++ extra) =
      folderOutputs snipets_path path files := by
  unfold folderOutputs
  rw [buildFound_append_md files extra h]

lemma emit_pairs_of_established (pairs : List (Str × Str)) :
    ∀ fs : FS, (∀ pr ∈ pairs, fs.lookup pr.1 = some pr.2) →
      emit_pairs fs pairs = (fs, 0) := by
  induction pairs with
  | nil => intro fs _; rfl
  | cons pr rest ih =>
    intro fs h
    obtain ⟨fname, content⟩ := pr
    have h1 : fs.lookup fname = some content := h _ (List.mem_cons_self _ _)
    have hw : write_if_changed fs fname content = (fs, false) := by
      simp [write_if_changed, h1]
    simp only [emit_pairs, hw]
    rw [ih fs fun q hq => h q (List.mem_cons_of_mem _ hq)]
    rfl

lemma emit_pairs_lookup_of_not_mem (pairs : List (Str × Str)) :
    ∀ (fs : FS) (k : Str), k ∉ pairs.map Prod.fst →
      (emit_pairs fs pairs).1.lookup k = fs.lookup k := by
  induction pairs with
  | nil => intro fs k _; rfl
  | cons pr rest ih =>
    intro fs k hk
    obtain ⟨fname, content⟩ := pr
    rw [List.map_cons, List.mem_cons] at hk
    push_neg at hk
    simp only [emit_pairs]
    rw [ih _ k hk.2]
    simp only [write_if_changed]
    split
    · exact lookup_cons_ne hk.1
    · rfl

lemma emit_pairs_establishes (pairs : List (Str × Str)) :
    ∀ fs : FS, (pairs.map Prod.fst).Nodup →
      ∀ pr ∈ pairs, (emit_pairs fs pairs).1.lookup pr.1 = some pr.2 := by
  induction pairs with
  | nil => intro fs _ pr h; simp at h
  | cons q rest ih =>
    intro fs hn pr hpr
    obtain ⟨fname, content⟩ := q
    rw [List.map_cons, List.nodup_cons] at hn
    rcases List.mem_cons.mp hpr with heq | hmem
    · cases heq
      simp only [emit_pairs]
      rw [emit_pairs_lookup_of_not_mem rest _ _ hn.1]
      simp only [write_if_changed]
      split
      · exact List.lookup_cons_self
      · next hcond => exact not_not.mp hcond
    · simp only [emit_pairs]
      exact ih _ hn.2 pr hmem

/-- Splitting at the final separator: if the parts after the separator are
slash-free, the decomposition is unique. -/
lemma append_slash_inj :
    ∀ (d1 : Str) {d2 x1 x2 : Str}, '/' ∉ x1 → '/' ∉ x2 →
      d1 ++ '/' :: x1 = d2 ++ '/' :: x2 → d1 = d2 ∧ x1 = x2 := by
  intro d1
  induction d1 with
  | nil =>
    intro d2 x1 x2 h1 h2 heq
    cases d2 with
    | nil => simpa using heq
    | cons c d2' =>
      rw [List.nil_append, List.cons_append] at heq
      injection heq with hc htail
      exfalso
      apply h1
      rw [htail]
      exact List.mem_append.mpr (Or.inr (List.mem_cons_self _ _))
  | cons c d1' ih =>
    intro d2 x1 x2 h1 h2 heq
    cases d2 with
    | nil =>
      rw [List.nil_append, List.cons_append] at heq
      injection heq with hc htail
      exfalso
      apply h2
      rw [← htail]
      exact List.mem_append.mpr (Or.inr (List.mem_cons_self _ _))
    | cons e d2' =>
      rw [List.cons_append, List.cons_append] at heq
      injection heq with hc htail
      obtain ⟨hd, hx⟩ := ih h1 h2 htail
      exact ⟨by rw [hc, hd], hx⟩

lemma joinPath_of_abs {a b : Str} (h : (str "/").isPrefixOf b = true) :
    joinPath a b = b := by
  unfold joinPath
  rw [h]
  simp

lemma ne_nil_of_abs {d : Str} (h : (str "/").isPrefixOf d = true) : d ≠ [] := by
  intro hd
  subst hd
  exact absurd h (by decide)

/-- On a normalised directory and a separator-free entry, `os.path.join`
is plain concatenation with one slash. -/
lemma joinPath_slashfree (d x : Str) (hd : d ≠ [])
    (hds : (str "/").isSuffixOf d = false) (hx : '/' ∉ x) :
    joinPath d x = d ++ '/' :: x := by
  unfold joinPath
  have hxp : (str "/").isPrefixOf x = false := by
    cases x with
    | nil => rfl
    | cons a xs =>
      have ha : a ≠ '/' := fun hh => hx (hh ▸ List.mem_cons_self _ _)
      show (('/' == a) && List.isPrefixOf [] xs) = false
      simp [beq_eq_false_iff_ne.mpr (Ne.symm ha)]
  rw [hxp]
  simp only [Bool.false_eq_true, if_false]
  rw [if_neg (by
    rintro (hnil | hsuf)
    · exact hd hnil
    · rw [hds] at hsuf
      exact Bool.false_ne_true hsuf)]
  rw [List.append_assoc]
  rfl

lemma slashfree_md {b : Str} (hb : '/' ∉ b) : '/' ∉ b ++ COMBINED_EXT := by
  intro h
  rcases List.mem_append.mp h with h | h
  · exact hb h
  · exact absurd h (by decide)

/-- Combined-file paths from distinct normalised directories differ. -/
lemma combinedPath_ne {d1 d2 b1 b2 : Str}
    (hd1 : d1 ≠ []) (hs1 : (str "/").isSuffixOf d1 = false)
    (hd2 : d2 ≠ []) (hs2 : (str "/").isSuffixOf d2 = false)
    (hb1 : '/' ∉ b1) (hb2 : '/' ∉ b2) (hne : d1 ≠ d2) :
    joinPath d1 (b1 ++ COMBINED_EXT) ≠ joinPath d2 (b2 ++ COMBINED_EXT) := by
  intro heq
  rw [joinPath_slashfree d1 _ hd1 hs1 (slashfree_md hb1),
    joinPath_slashfree d2 _ hd2 hs2 (slashfree_md hb2)] at heq
  exact hne (append_slash_inj d1 (slashfree_md hb1) (slashfree_md hb2) heq).1

/-- Combined-file paths of distinct bases within one directory differ. -/
lemma combinedPath_inj {d b1 b2 : Str}
    (hd : d ≠ []) (hs : (str "/").isSuffixOf d = false)
    (hb1 : '/' ∉ b1) (hb2 : '/' ∉ b2)
    (heq : joinPath d (b1 ++ COMBINED_EXT) = joinPath d (b2 ++ COMBINED_EXT)) :
    b1 = b2 := by
  rw [joinPath_slashfree d _ hd hs (slashfree_md hb1),
    joinPath_slashfree d _ hd hs (slashfree_md hb2)] at heq
  have h2 := (append_slash_inj d (slashfree_md hb1) (slashfree_md hb2) heq).2
  exact List.append_cancel_right h2

lemma mem_keys_addFound (base ext : Str) (found : List (Str × List Str))
    {x : Str} (hx : x ∈ (addFound base ext found).map Prod.fst) :
    x ∈ found.map Prod.fst ∨ x = base := by
  rw [keys_addFound] at hx
  split at hx
  · exact Or.inl hx
  · rcases List.mem_append.mp hx with h | h
    · exact Or.inl h
    · exact Or.inr (List.mem_singleton.mp h)

lemma keys_foldl_slashfree :
    ∀ (files : List Str) (acc : List (Str × List Str)),
      (∀ x ∈ acc.map Prod.fst, '/' ∉ x) → (∀ f ∈ files, '/' ∉ f) →
      ∀ x ∈ (files.foldl foundStep acc).map Prod.fst, '/' ∉ x := by
  intro files
  induction files with
  | nil => intro acc ha _ x hx; exact ha x hx
  | cons f rest ih =>
    intro acc ha hf x hx
    rw [List.foldl_cons] at hx
    refine ih (foundStep acc f) ?_ (fun g hg => hf g (List.mem_cons_of_mem _ hg)) x hx
    intro y hy
    cases hm : matched_ext f with
    | none =>
      rw [show foundStep acc f = acc from by simp [foundStep, hm]] at hy
      exact ha y hy
    | some ext =>
      rw [show foundStep acc f =
        addFound (f.take (f.length - ext.length)) ext acc from by
          simp [foundStep, hm]] at hy
      rcases mem_keys_addFound _ _ _ hy with h | h
      · exact ha y h
      · subst h
        intro hmem
        exact hf f (List.mem_cons_self _ _) (List.mem_of_mem_take hmem)

lemma keys_buildFound_slashfree {files : List Str} (hf : ∀ f ∈ files, '/' ∉ f) :
    ∀ x ∈ (buildFound files).map Prod.fst, '/' ∉ x :=
  keys_foldl_slashfree files [] (by simp) hf

lemma eq_of_mem_of_keys_nodup {β : Type} {l : List (Str × β)} {x y : Str × β}
    (hn : (l.map Prod.fst).Nodup) (hx : x ∈ l) (hy : y ∈ l) (hk : x.1 = y.1) :
    x = y := by
  have h1 : l.lookup x.1 = some x.2 := lookup_of_mem_of_nodup hn hx
  have h2 : l.lookup y.1 = some y.2 := lookup_of_mem_of_nodup hn hy
  rw [hk, h2] at h1
  injection h1 with h1
  exact Prod.ext hk h1.symm

lemma folderOutputs_keys_nodup (snipets_path d : Str) (files : List Str)
    (hd : d ≠ []) (hds : (str "/").isSuffixOf d = false)
    (hf : ∀ f ∈ files, '/' ∉ f) :
    ((folderOutputs snipets_path d files).map Prod.fst).Nodup := by
  unfold folderOutputs
  rw [List.map_map]
  have hinj : ∀ x ∈ buildFound files, ∀ y ∈ buildFound files,
      (Prod.fst ∘ fun bg => (joinPath d (bg.1 ++ COMBINED_EXT),
        group_content snipets_path d bg.1 bg.2)) x =
      (Prod.fst ∘ fun bg => (joinPath d (bg.1 ++ COMBINED_EXT),
        group_content snipets_path d bg.1 bg.2)) y → x = y := by
    intro x hx y hy heq
    have hb1 : '/' ∉ x.1 :=
      keys_buildFound_slashfree hf x.1 (List.mem_map.mpr ⟨x, hx, rfl⟩)
    have hb2 : '/' ∉ y.1 :=
      keys_buildFound_slashfree hf y.1 (List.mem_map.mpr ⟨y, hy, rfl⟩)
    exact eq_of_mem_of_keys_nodup (keys_nodup_buildFound files) hx hy
      (combinedPath_inj hd hds hb1 hb2 heq)
  exact ((keys_nodup_buildFound files).of_map _).map_on hinj

lemma folderOutputs_key_shape (snipets_path d : Str) {files : List Str}
    (hf : ∀ f ∈ files, '/' ∉ f) :
    ∀ pr ∈ folderOutputs snipets_path d files,
      ∃ b, '/' ∉ b ∧ pr.1 = joinPath d (b ++ COMBINED_EXT) := by
  intro pr hpr
  unfold folderOutputs at hpr
  rw [List.mem_map] at hpr
  obtain ⟨bg, hbg, heq⟩ := hpr
  refine ⟨bg.1, ?_, by rw [← heq]⟩
  exact keys_buildFound_slashfree hf bg.1 (List.mem_map.mpr ⟨bg, hbg, rfl⟩)

/-- Reading a path that no folder of the walk writes is unchanged by the
whole run. -/
lemma generate_lookup_of_untouched (snipets_path : Str) :
    ∀ (w : List (Str × List Str)) (fs : FS) (k : Str),
      (∀ p ∈ w, ∀ pr ∈ folderOutputs snipets_path (joinPath snipets_path p.1) p.2,
        k ≠ pr.1) →
      (generate snipets_path w fs).1.lookup k = fs.lookup k := by
  intro w
  induction w with
  | nil => intro fs k _; rfl
  | cons p rest ih =>
    intro fs k hk
    obtain ⟨root, files⟩ := p
    simp only [generate]
    rw [ih _ k (fun q hq => hk q (List.mem_cons_of_mem _ hq))]
    unfold process_folder
    apply emit_pairs_lookup_of_not_mem
    intro hmem
    rw [List.mem_map] at hmem
    obtain ⟨pr, hpr, heq⟩ := hmem
    exact hk (root, files) (List.mem_cons_self _ _) pr hpr heq.symm

/-- After a full run, the filesystem holds every folder's computed outputs:
each combined file's content is exactly what its own folder computed,
because later folders write only to their own, distinct, paths. -/
lemma generate_establishes (snipets_path : Str) :
    ∀ (w : List (Str × List Str)) (fs : FS), goodWalk w →
      ∀ p ∈ w, ∀ pr ∈ folderOutputs snipets_path (joinPath snipets_path p.1) p.2,
        (generate snipets_path w fs).1.lookup pr.1 = some pr.2 := by
  intro w
  induction w with
  | nil => intro fs _ p hp; simp at hp
  | cons q rest ih =>
    intro fs hg p hp pr hpr
    obtain ⟨root, files⟩ := q
    have hnodup : root ∉ rest.map Prod.fst ∧ (rest.map Prod.fst).Nodup :=
      List.nodup_cons.mp (by simpa using hg.1)
    have hgtail : goodWalk rest :=
      ⟨hnodup.2, fun r hr => hg.2 r (List.mem_cons_of_mem _ hr)⟩
    have hhead := hg.2 (root, files) (List.mem_cons_self _ _)
    have habs : joinPath snipets_path root = root := joinPath_of_abs hhead.1
    have hdne : root ≠ [] := ne_nil_of_abs hhead.1
    rcases List.mem_cons.mp hp with heq | hmem
    · subst heq
      simp only [generate]
      rw [generate_lookup_of_untouched snipets_path rest _ pr.1 ?_]
      · unfold process_folder
        exact emit_pairs_establishes _ fs
          (folderOutputs_keys_nodup snipets_path (joinPath snipets_path root) files
            (by rw [habs]; exact hdne) (by rw [habs]; exact hhead.2.1) hhead.2.2)
          pr hpr
      · intro q2 hq2 pr2 hpr2 heqk
        have hq2p := hg.2 q2 (List.mem_cons_of_mem _ hq2)
        have habs2 : joinPath snipets_path q2.1 = q2.1 := joinPath_of_abs hq2p.1
        obtain ⟨b1, hb1, hk1⟩ := folderOutputs_key_shape snipets_path
          (joinPath snipets_path root) hhead.2.2 pr hpr
        obtain ⟨b2, hb2, hk2⟩ := folderOutputs_key_shape snipets_path
          (joinPath snipets_path q2.1) hq2p.2.2 pr2 hpr2
        have hdd : root ≠ q2.1 := by
          intro hh
          exact hnodup.1 (hh ▸ List.mem_map.mpr ⟨q2, hq2, rfl⟩)
        have hpaths : joinPath root (b1 ++ COMBINED_EXT) =
            joinPath q2.1 (b2 ++ COMBINED_EXT) := by
          rw [← habs, ← hk1, heqk, hk2, habs2]
        exact combinedPath_ne hdne hhead.2.1 (ne_nil_of_abs hq2p.1) hq2p.2.1
          hb1 hb2 hdd hpaths
    · simp only [generate]
      exact ih _ hgtail p hmem pr hpr

/-- A run over folders whose outputs are already on disk writes nothing
and leaves the filesystem untouched. -/
lemma generate_zero (snipets_path : Str) :
    ∀ (w : List (Str × List Str)) (fs : FS),
      (∀ p ∈ w, ∀ pr ∈ folderOutputs snipets_path (joinPath snipets_path p.1) p.2,
        fs.lookup pr.1 = some pr.2) →
      generate snipets_path w fs = (fs, 0) := by
  intro w
  induction w with
  | nil => intro fs _; rfl
  | cons q rest ih =>
    intro fs h
    obtain ⟨root, files⟩ := q
    have hpf : process_folder snipets_path fs (joinPath snipets_path root) files =
        (fs, 0) := by
      unfold process_folder
      exact emit_pairs_of_established _ fs (h (root, files) (List.mem_cons_self _ _))
    simp only [generate, hpf]
    rw [ih fs (fun p hp => h p (List.mem_cons_of_mem _ hp))]
    rfl

/-- Each folder of the second walk computes the same outputs as the
corresponding folder of the first: the extra `.md` listings match no
extension and change no group. -/
lemma secondWalk_outputs (snipets_path : Str) {w w' : List (Str × List Str)}
    (h : secondWalk w w') :
    ∀ p' ∈ w', ∃ p ∈ w,
      folderOutputs snipets_path (joinPath snipets_path p'.1) p'.2 =
        folderOutputs snipets_path (joinPath snipets_path p.1) p.2 := by
  induction h with
  | nil => intro p' hp'; simp at hp'
  | @cons a b l1 l2 hrel hrest ih =>
    intro p' hp'
    rcases List.mem_cons.mp hp' with heq | hmem
    · subst heq
      refine ⟨a, List.mem_cons_self _ _, ?_⟩
      obtain ⟨h1, h2, h3⟩ := hrel
      obtain ⟨t, ht⟩ := List.isPrefixOf_iff_prefix.mp h2
      have htd : t = p'.2.drop a.2.length := by
        rw [← ht, List.drop_left]
      rw [← h1, ← ht]
      exact folderOutputs_append_md _ _ _ _ (fun g hg => h3 g (htd ▸ hg))
    · obtain ⟨p, hp, hout⟩ := ih p' hmem
      exact ⟨p, List.mem_cons_of_mem _ hp, hout⟩

/-- C4: running `generate` a second time over the same snippet sources —
the second walk lists the same directories, possibly with the generated
`.md` files added — performs zero writes: the write branch of
`write_if_changed` is never taken, and the filesystem (hence every
combined file's byte content) is exactly the one the first run left. -/
theorem C4_second_run_writes_nothing (snipets_path : Str)
    (w w' : List (Str × List Str)) (fs : FS)
    (hg : goodWalk w) (hw : secondWalk w w') :
    generate snipets_path w' (generate snipets_path w fs).1 =
      ((generate snipets_path w fs).1, 0) := by
  apply generate_zero
  intro p' hp' pr hpr
  obtain ⟨p, hp, houts⟩ := secondWalk_outputs snipets_path hw p' hp'
  rw [houts] at hpr
  exact generate_establishes snipets_path w fs hg p hp pr hpr

/-- Witness for C4: a first run over `[demo.py, demo.go]`, then a second
run whose listing also shows the generated `demo.md`, writes nothing. -/
theorem C4_witness :
    generate (str "/docs/snippets")
        [((str "/docs/snippets"), [str "demo.py", str "demo.go", str "demo.md"])]
        (generate (str "/docs/snippets")
          [((str "/docs/snippets"), [str "demo.py", str "demo.go"])] []).1 =
      ((generate (str "/docs/snippets")
          [((str "/docs/snippets"), [str "demo.py", str "demo.go"])] []).1, 0) :=
  C4_second_run_writes_nothing (str "/docs/snippets")
    [((str "/docs/snippets"), [str "demo.py", str "demo.go"])]
    [((str "/docs/snippets"), [str "demo.py", str "demo.go", str "demo.md"])]
    [] ⟨by decide, by decide⟩
    (List.Forall₂.cons (by refine ⟨rfl, by decide, ?_⟩; decide) List.Forall₂.nil)

end GenSnippets
